import Mathlib

/-!
Verification of the decomposition dispatch surface of a dense-matrix
decomposition library (`src/linalg/decomposition.rs`).

The file under verification is the dispatch surface only: each entry point
forwards to a constructor (`LU::new`, `Cholesky::new`, `Schur::try_new`, ...)
whose implementation is not part of the given source.  Those constructors are
therefore modelled from the specification, as explained in the doc comment of
each definition below.  Matrices are embedded as entry tables `ℕ → ℕ → ℚ`
with extents carried separately by each operation; the scalar square root,
which exact rationals lack, is abstracted as an explicit function parameter
where an algorithm needs it, and the per-iteration step of the iterative
algorithms (Schur, symmetric eigen, SVD) is abstracted as an explicit
state-transformer where only the iteration-budget discipline is at stake.
-/

namespace Decomp

/-- A matrix entry table: row index, column index, entry.  Extents are carried
separately by each operation. -/
def Mat : Type := ℕ → ℕ → ℚ

/-- The identity matrix (as an unbounded entry table). -/
def idMat (i k : ℕ) : ℚ := if i = k then 1 else 0

/-- Exchange rows `a` and `b` of `m`. -/
def swapRows (m : Mat) (a b i k : ℕ) : ℚ := m (Equiv.swap a b i) k

/-- Exchange columns `a` and `b` of `m`. -/
def swapCols (m : Mat) (a b i k : ℕ) : ℚ := m i (Equiv.swap a b k)

/-- Replay a recorded sequence of row swaps, in order, against a matrix.
Modelled from the spec: the permutation encoding of the pivoted LU
decompositions is "a sequence of row/column swap pairs (index, index) applied
in order". -/
def applySwaps (l : List (ℕ × ℕ)) (m : Mat) : Mat :=
  l.foldl (fun acc p => swapRows acc p.1 p.2) m

/-- The permutation of row indices realised by a swap sequence. -/
def permOfSwaps (l : List (ℕ × ℕ)) : Equiv.Perm ℕ :=
  l.foldl (fun e p => (Equiv.swap p.1 p.2).trans e) (Equiv.refl ℕ)

/-- `m` is a valid `n × n` permutation matrix: every row and every column
holds exactly one `1`, and zeros elsewhere. -/
def IsPermMatrix (n : ℕ) (m : Mat) : Prop :=
  (∀ i < n, ∃ k, k < n ∧ m i k = 1 ∧ ∀ k' < n, k' ≠ k → m i k' = 0) ∧
  (∀ k < n, ∃ i, i < n ∧ m i k = 1 ∧ ∀ i' < n, i' ≠ i → m i' k = 0)

/-- An abstract iterative decomposition algorithm: one implicit-shift
refinement step per outer iteration, and a full-deflation (convergence) test
on the current state. -/
structure IterAlg (σ : Type) where
  qrStep : σ → σ
  deflated : σ → Bool

/-- Modelled from the spec: the shared outer refinement loop of
`Schur::try_new`, `SymmetricEigen::try_new` and `SVD::try_new`, whose
implementations are not part of the given source (the dispatch file only
forwards to them).  `Run A maxNiter s k r` holds when the loop, started in
state `s` with `k` iterations already performed, returns `r`: it returns the
current state once fully deflated; otherwise, while the budget allows, it
performs one implicit-shift step and increments the iteration count; and it
gives up with an absent result when a nonzero `maxNiter` iterations have been
performed without reaching full deflation.  With `maxNiter = 0` there is no
give-up case, so a diverging unbounded run is a state with no derivation at
all. -/
inductive IterAlg.Run {σ : Type} (A : IterAlg σ) (maxNiter : ℕ) : σ → ℕ → Option σ → Prop
  | conv : ∀ {s k}, A.deflated s = true → IterAlg.Run A maxNiter s k (some s)
  | budget : ∀ {s k}, A.deflated s = false → maxNiter ≠ 0 → maxNiter ≤ k →
      IterAlg.Run A maxNiter s k none
  | iter : ∀ {s k r}, A.deflated s = false → (maxNiter = 0 ∨ k < maxNiter) →
      IterAlg.Run A maxNiter (A.qrStep s) (k + 1) r → IterAlg.Run A maxNiter s k r

/-- Modelled from the spec: `try_schur` forwards to `Schur::try_new` (absent
from the given source): Hessenberg reduction followed by the implicit-shift QR
loop.  The concrete double-shift step and the eps-scaled deflation test are
abstracted as an `IterAlg` family indexed by the tolerance `eps`; `m` is the
loop's initial state. -/
def trySchur {σ : Type} (alg : ℚ → IterAlg σ) (m : σ) (eps : ℚ) (maxNiter : ℕ)
    (r : Option σ) : Prop :=
  IterAlg.Run (alg eps) maxNiter m 0 r

/-- Modelled from the spec: `try_symmetric_eigen` forwards to
`SymmetricEigen::try_new` (absent from the given source): tridiagonalization
followed by the implicit-shift QR loop, abstracted like `trySchur`. -/
def trySymmetricEigen {σ : Type} (alg : ℚ → IterAlg σ) (m : σ) (eps : ℚ) (maxNiter : ℕ)
    (r : Option σ) : Prop :=
  IterAlg.Run (alg eps) maxNiter m 0 r

/-- Modelled from the spec: `try_svd` forwards to `SVD::try_new` (absent from
the given source): bidiagonalization followed by the implicit-shift deflation
loop.  The step/deflation family is additionally indexed by `compute_u` /
`compute_v`, which select whether the orthogonal accumulation matrices are
built. -/
def trySvd {σ : Type} (alg : Bool → Bool → ℚ → IterAlg σ) (m : σ)
    (compute_u compute_v : Bool) (eps : ℚ) (maxNiter : ℕ) (r : Option σ) : Prop :=
  IterAlg.Run (alg compute_u compute_v eps) maxNiter m 0 r

/-- `A`, started in state `s`, converges to `v`: some iterate of the loop is
fully deflated, and `v` is the first such iterate. -/
def convergesTo {σ : Type} (A : IterAlg σ) (s v : σ) : Prop :=
  ∃ n, A.deflated (A.qrStep^[n] s) = true ∧
    (∀ m < n, A.deflated (A.qrStep^[m] s) = false) ∧ v = A.qrStep^[n] s

/-- Modelled from the spec: the unbounded entry point `schur` (forwarding to
`Schur::new`, absent from the given source) runs the same loop as `try_schur`
with the scalar type's default tolerance and no iteration budget, assuming
convergence; its result is the first fully deflated iterate. -/
def schur {σ : Type} (alg : ℚ → IterAlg σ) (defaultEps : ℚ) (m v : σ) : Prop :=
  convergesTo (alg defaultEps) m v

/-- Modelled from the spec: the unbounded entry point `symmetric_eigen`. -/
def symmetricEigen {σ : Type} (alg : ℚ → IterAlg σ) (defaultEps : ℚ) (m v : σ) : Prop :=
  convergesTo (alg defaultEps) m v

/-- Modelled from the spec: the unbounded entry point `svd`. -/
def svd {σ : Type} (alg : Bool → Bool → ℚ → IterAlg σ) (defaultEps : ℚ) (m : σ)
    (compute_u compute_v : Bool) (v : σ) : Prop :=
  convergesTo (alg compute_u compute_v defaultEps) m v

/-- A concrete two-step instance of the abstract loop, used to exercise the
iteration-budget theorems: the state counts up from `0` and deflation is
reached at state `2`. -/
def exAlg : ℚ → IterAlg ℕ := fun _ => ⟨Nat.succ, fun s => decide (s = 2)⟩

/-- The element of `b :: l` whose `f`-value has the largest absolute value,
ties resolved towards the earlier element. -/
def bestOf {α : Type} (f : α → ℚ) : List α → α → α
  | [], b => b
  | i :: t, b => bestOf f t (if |f b| < |f i| then i else b)

/-- Row index in `[j, r)` carrying the entry of largest absolute value of
column `j` on or below the diagonal: the partial-pivoting choice. -/
def pivotRow (m : Mat) (j r : ℕ) : ℕ :=
  bestOf (fun i => m i j) (List.range' (j + 1) (r - (j + 1))) j

/-- Index pair in the trailing submatrix `[j, r) × [j, c)` carrying the entry
of largest absolute value: the full-pivoting choice. -/
def pivotPair (m : Mat) (j r c : ℕ) : ℕ × ℕ :=
  bestOf (fun p => m p.1 p.2)
    (List.product (List.range' j (r - j)) (List.range' j (c - j))) (j, j)

/-- The Gaussian elimination step at column `j` on the pivoted matrix `m1`:
if the pivot is nonzero, store the multipliers below the diagonal of column
`j` and update the trailing entries of the rows below; a zero pivot (the
whole subcolumn is zero, since the pivot has the largest absolute value)
performs no elimination and the algorithm continues. -/
def luElim (r : ℕ) (m1 : Mat) (j i k : ℕ) : ℚ :=
  if m1 j j = 0 then m1 i k
  else if j < i ∧ i < r then
    if k = j then m1 i j / m1 j j
    else if j < k then m1 i k - m1 i j / m1 j j * m1 j k
    else m1 i k
  else m1 i k

/-- The packed working matrix together with the recorded swap sequence. -/
structure LUState where
  mat : Mat
  swaps : List (ℕ × ℕ)

/-- Modelled from the spec: one step of `LU::new` (absent from the given
source), Gaussian elimination with partial (row) pivoting: the row at or
below the diagonal with the largest absolute value in column `j` is swapped
into place, the swap is recorded, and the column is eliminated. -/
def luStep (r : ℕ) (st : LUState) (j : ℕ) : LUState :=
  ⟨luElim r (swapRows st.mat j (pivotRow st.mat j r)) j,
   st.swaps ++ [(j, pivotRow st.mat j r)]⟩

/-- Modelled from the spec: `LU::new` on an `r × c` matrix: one
partial-pivoting elimination step per column up to `min r c`, returning the
packed L/U matrix and the recorded row-swap sequence. -/
def luRun (r c : ℕ) (m : Mat) : LUState :=
  (List.range (min r c)).foldl (luStep r) ⟨m, []⟩

/-- The lower-triangular factor L read off the packed LU matrix: unit
diagonal, multipliers below the diagonal, zeros elsewhere (an `r × min r c`
matrix). -/
def luL (r c : ℕ) (m : Mat) (i k : ℕ) : ℚ :=
  if i < r ∧ k < min r c then
    if k < i then (luRun r c m).mat i k
    else if k = i then 1 else 0
  else 0

/-- The packed working matrix with the recorded row-swap and column-swap
sequences of the full-pivoting decomposition. -/
structure FullPivLUState where
  mat : Mat
  rowSwaps : List (ℕ × ℕ)
  colSwaps : List (ℕ × ℕ)

/-- Modelled from the spec: one step of `FullPivLU::new` (absent from the
given source), Gaussian elimination with full pivoting: the entry of largest
absolute value of the whole trailing submatrix is brought to the diagonal by
a row swap and a column swap, both recorded, and the column is eliminated. -/
def fullPivLuStep (r c : ℕ) (st : FullPivLUState) (j : ℕ) : FullPivLUState :=
  ⟨luElim r
      (swapCols (swapRows st.mat j (pivotPair st.mat j r c).1) j (pivotPair st.mat j r c).2) j,
   st.rowSwaps ++ [(j, (pivotPair st.mat j r c).1)],
   st.colSwaps ++ [(j, (pivotPair st.mat j r c).2)]⟩

/-- Modelled from the spec: `FullPivLU::new` on an `r × c` matrix. -/
def fullPivLuRun (r c : ℕ) (m : Mat) : FullPivLUState :=
  (List.range (min r c)).foldl (fullPivLuStep r c) ⟨m, [], []⟩

/-- The Cholesky column-elimination update at column `j`: the diagonal entry
becomes the square root of the pivot, the subcolumn is divided by it, and the
trailing lower triangle receives the rank-one Schur-complement update (the
two square roots cancel there, leaving a division by the pivot).  The scalar
square root is the abstract `sq`. -/
def cholUpd (sq : ℚ → ℚ) (m : Mat) (j i k : ℕ) : ℚ :=
  if k = j then
    if i = j then sq (m j j)
    else if j < i then m i j / sq (m j j)
    else m i k
  else if j < k ∧ k ≤ i then m i k - m i j * m k j / m j j
  else m i k

/-- Sequential column elimination over a list of column indices, failing the
first time a diagonal pivot is non-positive. -/
def cholRun (sq : ℚ → ℚ) (m : Mat) : List ℕ → Option Mat
  | [] => some m
  | j :: t => if m j j ≤ 0 then none else cholRun sq (cholUpd sq m j) t

/-- Modelled from the spec: `Cholesky::new` (absent from the given source):
sequential column elimination reading only the lower triangle of the `n × n`
input; returns the lower-triangular factor L, or nothing the first time a
diagonal pivot would require the square root of a non-positive value. -/
def cholesky (sq : ℚ → ℚ) (n : ℕ) (m : Mat) : Option Mat :=
  (cholRun sq m (List.range n)).map fun w => fun i k =>
    if i < n ∧ k ≤ i then w i k else 0

/-- The working matrix after the first `t` elimination steps (budget of the
positivity checks aside). -/
def cholWork (sq : ℚ → ℚ) (m : Mat) (t : ℕ) : Mat :=
  (List.range t).foldl (cholUpd sq) m

/-- The diagonal pivot examined by the Cholesky elimination at step `j`. -/
def cholPivot (sq : ℚ → ℚ) (m : Mat) (j : ℕ) : ℚ := cholWork sq m j j j

/-- A concrete 2 × 2 matrix whose partial-pivoting LU swaps its rows. -/
def matEx (i k : ℕ) : ℚ :=
  if i = 0 ∧ k = 0 then 1 else if i = 0 ∧ k = 1 then 2
  else if i = 1 ∧ k = 0 then 3 else if i = 1 ∧ k = 1 then 4 else 0

/-- A matrix that is `1` on and below the diagonal and `5` above it. -/
def exA (i k : ℕ) : ℚ := if k ≤ i then 1 else 5

/-- A matrix with the same lower triangle as `exA` but `7` above the
diagonal. -/
def exB (i k : ℕ) : ℚ := if k ≤ i then 1 else 7

/-- The 1 × 1 matrix holding `-1`: symmetric but not positive-definite. -/
def negOneMat (_i _k : ℕ) : ℚ := -1

/-- One step (processing column `j`, from the last column towards the first)
of the square-root-free UDU factorization: the pivot `D j` is the Schur
complement of the already-processed trailing block, and the entries of column
`j` of `U` above the diagonal are completed by a division by the pivot;
failure when the pivot is exactly zero.  Only entries `m i j` with `i ≤ j`
are consulted. -/
def uduStep (m : Mat) (n : ℕ) (st : Option ((ℕ → ℚ) × Mat)) (j : ℕ) :
    Option ((ℕ → ℚ) × Mat) :=
  match st with
  | none => none
  | some (d, u) =>
    let dj := m j j -
      ((List.range' (j + 1) (n - (j + 1))).map (fun t => d t * u j t * u j t)).sum
    if dj = 0 then none
    else some (fun t => if t = j then dj else d t,
      fun i k =>
        if k = j then
          if i = j then 1
          else if i < j then
            (m i j - ((List.range' (j + 1) (n - (j + 1))).map
              (fun t => d t * u i t * u j t)).sum) / dj
          else u i k
        else u i k)

/-- Modelled from the spec: `UDU::new` (absent from the given source):
computes upper-triangular `U` (unit diagonal) and diagonal `D` with
`matrix = U·D·Uᵀ`, reading only the upper triangle of the `n × n` input,
processing columns from the last to the first; fails when a diagonal pivot is
exactly zero. -/
def udu (n : ℕ) (m : Mat) : Option ((ℕ → ℚ) × Mat) :=
  (List.range n).reverse.foldl (uduStep m n) (some (fun _ => 0, idMat))

/-- `a` and `b` agree on the lower triangle (diagonal included) of their
leading `n × n` block. -/
def EqLower (n : ℕ) (a b : Mat) : Prop := ∀ i < n, ∀ k, k ≤ i → a i k = b i k

/-- `a` and `b` agree on the upper triangle (diagonal included) of their
leading `n × n` block. -/
def EqUpper (n : ℕ) (a b : Mat) : Prop := ∀ k < n, ∀ i, i ≤ k → a i k = b i k

/-- The symmetric completion of the leading `n × n` lower triangle: the only
part of the input the symmetric algorithms consult. -/
def lowerSymPart (n : ℕ) (m : Mat) (i k : ℕ) : ℚ :=
  if i < n ∧ k < n then (if k ≤ i then m i k else m k i) else 0

/-- Modelled from the spec: `symmetric_tridiagonalize` forwards to
`SymmetricTridiagonal::new` (absent from the given source), which reads only
the lower triangle (including the diagonal) of the assumed-symmetric input;
the Householder reduction applied to the symmetric matrix so described is
abstracted as `red`. -/
def symmetricTridiagonalize {α : Type} (red : Mat → α) (n : ℕ) (m : Mat) : α :=
  red (lowerSymPart n m)

/-- Modelled from the spec: `symmetric_eigen` reads only the lower triangle
(including the diagonal); the tridiagonalization-plus-iteration pipeline
applied past that read is abstracted as `pipeline`. -/
def symmetricEigenLower {α : Type} (pipeline : Mat → α) (n : ℕ) (m : Mat) : α :=
  pipeline (lowerSymPart n m)

/-- Insert `x` into a descending-sorted list, keeping it descending. -/
def insertDesc (x : ℚ) : List ℚ → List ℚ
  | [] => [x]
  | y :: t => if y < x then x :: y :: t else y :: insertDesc x t

/-- Sort a list into descending order by repeated insertion. -/
def sortDesc (l : List ℚ) : List ℚ := l.foldr insertDesc []

/-- Modelled from the spec: the emission step of the SVD — the converged raw
diagonal values have their signs absorbed into the orthogonal factors (made
non-negative) and are emitted sorted in descending order. -/
def svdSingularValues (raw : List ℚ) : List ℚ := sortDesc (raw.map (fun x => |x|))

/-- Modelled from the spec: `SVD::try_new` (absent from the given source) up
to its emission step: `stage` abstracts the bidiagonalization plus the
iterative deflation, returning the raw converged diagonal, or nothing when
the iteration budget is exhausted; on success the singular values are
emitted through `svdSingularValues`. -/
def trySvdValues {σ : Type} (stage : σ → Option (List ℚ)) (m : σ) : Option (List ℚ) :=
  (stage m).map svdSingularValues

/-- A concrete converged-diagonal stage used to exercise the SVD emission
theorem. -/
def stageEx : ℕ → Option (List ℚ) := fun _ => some [3, -5, 2]

/-- The twelve entry points of the dispatch surface. -/
inductive EntryPoint
  | qr | colPivQr | lu | fullPivLu | hessenberg | bidiagonalize | schurPoint
  | symmetricEigenPoint | svdPoint | symmetricTridiagonalize | cholesky | udu

/-- Whether the entry point's return type is `Option`-wrapped, read off the
signatures in `decomposition.rs`. -/
def returnsOption : EntryPoint → Bool
  | .cholesky => true
  | .udu => true
  | _ => false

/-- The static-dimension semantics of the `DimSub<U1>` trait bound in the
source's where-clauses: dimension `d` supports subtracting `U1`, i.e. `d - 1`
is again a dimension, i.e. `d` is a successor. -/
def dimSubU1 (d : ℕ) : Prop := ∃ e, d = e + 1

/-- The bound `DimMinimum<R, C>: DimSub<U1>` required by `bidiagonalize`. -/
def bidiagonalizeDefined (r c : ℕ) : Prop := dimSubU1 (min r c)

/-- The bound `DimMinimum<R, C>: DimSub<U1>` required by `svd`. -/
def svdDefined (r c : ℕ) : Prop := dimSubU1 (min r c)

/-- The bound `DimMinimum<R, C>: DimSub<U1>` required by `try_svd`. -/
def trySvdDefined (r c : ℕ) : Prop := dimSubU1 (min r c)

/-- The bound `D: DimSub<U1>` required by `hessenberg`. -/
def hessenbergDefined (d : ℕ) : Prop := dimSubU1 d

/-- The bound `D: DimSub<U1>` required by `schur` (for the Hessenberg
reduction). -/
def schurDefined (d : ℕ) : Prop := dimSubU1 d

/-- The bound `D: DimSub<U1>` required by `try_schur`. -/
def trySchurDefined (d : ℕ) : Prop := dimSubU1 d

/-- The bound `D: DimSub<U1>` required by `symmetric_eigen`. -/
def symmetricEigenDefined (d : ℕ) : Prop := dimSubU1 d

/-- The bound `D: DimSub<U1>` required by `try_symmetric_eigen`. -/
def trySymmetricEigenDefined (d : ℕ) : Prop := dimSubU1 d

/-- The bound `D: DimSub<U1>` required by `symmetric_tridiagonalize`. -/
def symmetricTridiagonalizeDefined (d : ℕ) : Prop := dimSubU1 d

theorem applySwaps_eq_perm (l : List (ℕ × ℕ)) (m : Mat) :
    ∀ i k, applySwaps l m i k = m (permOfSwaps l i) k := by
  induction l generalizing m with
  | nil => intro i k; rfl
  | cons p t ih =>
    intro i k
    have step : applySwaps (p :: t) m = applySwaps t (swapRows m p.1 p.2) := rfl
    have hperm : ∀ (e : Equiv.Perm ℕ) (i : ℕ),
        (t.foldl (fun e q => (Equiv.swap q.1 q.2).trans e) e) i
          = e ((t.foldl (fun e q => (Equiv.swap q.1 q.2).trans e) (Equiv.refl ℕ)) i) := by
      clear ih step
      induction t with
      | nil => intro e i; rfl
      | cons q t ih =>
        intro e i
        simp only [List.foldl_cons]
        rw [ih ((Equiv.swap q.1 q.2).trans e), ih ((Equiv.swap q.1 q.2).trans (Equiv.refl ℕ))]
        simp [Equiv.trans_apply]
    rw [step, ih (swapRows m p.1 p.2) i k]
    show m (Equiv.swap p.1 p.2 ((permOfSwaps t) i)) k = m (permOfSwaps (p :: t) i) k
    unfold permOfSwaps
    simp only [List.foldl_cons]
    rw [hperm ((Equiv.swap p.1 p.2).trans (Equiv.refl ℕ)) i]
    simp [Equiv.trans_apply]

theorem permOfSwaps_lt (l : List (ℕ × ℕ)) (n : ℕ)
    (hb : ∀ p ∈ l, p.1 < n ∧ p.2 < n) :
    ∀ i, i < n ↔ permOfSwaps l i < n := by
  induction l with
  | nil => intro i; exact Iff.rfl
  | cons p t ih =>
    intro i
    have hswap : ∀ j, j < n ↔ Equiv.swap p.1 p.2 j < n := by
      intro j
      rcases eq_or_ne j p.1 with h1 | h1
      · subst h1; rw [Equiv.swap_apply_left]
        exact ⟨fun _ => (hb p (List.mem_cons_self _ _)).2,
               fun _ => (hb p (List.mem_cons_self _ _)).1⟩
      rcases eq_or_ne j p.2 with h2 | h2
      · subst h2; rw [Equiv.swap_apply_right]
        exact ⟨fun _ => (hb p (List.mem_cons_self _ _)).1,
               fun _ => (hb p (List.mem_cons_self _ _)).2⟩
      · rw [Equiv.swap_apply_of_ne_of_ne h1 h2]
    have hbt : ∀ q ∈ t, q.1 < n ∧ q.2 < n := fun q hq => hb q (List.mem_cons_of_mem _ hq)
    have hcons : permOfSwaps (p :: t) i = Equiv.swap p.1 p.2 (permOfSwaps t i) := by
      unfold permOfSwaps
      simp only [List.foldl_cons]
      have hperm : ∀ (e : Equiv.Perm ℕ) (i : ℕ),
          (t.foldl (fun e q => (Equiv.swap q.1 q.2).trans e) e) i
            = e ((t.foldl (fun e q => (Equiv.swap q.1 q.2).trans e) (Equiv.refl ℕ)) i) := by
        clear ih hbt hswap hb
        induction t with
        | nil => intro e i; rfl
        | cons q t ih =>
          intro e i
          simp only [List.foldl_cons]
          rw [ih ((Equiv.swap q.1 q.2).trans e), ih ((Equiv.swap q.1 q.2).trans (Equiv.refl ℕ))]
          simp [Equiv.trans_apply]
      rw [hperm ((Equiv.swap p.1 p.2).trans (Equiv.refl ℕ)) i]
      simp [Equiv.trans_apply]
    rw [hcons, ← hswap (permOfSwaps t i)]
    exact ih hbt i

theorem isPermMatrix_applySwaps_id (l : List (ℕ × ℕ)) (n : ℕ)
    (hb : ∀ p ∈ l, p.1 < n ∧ p.2 < n) :
    IsPermMatrix n (applySwaps l idMat) := by
  have key : ∀ i k, applySwaps l idMat i k = if permOfSwaps l i = k then 1 else 0 :=
    fun i k => applySwaps_eq_perm l idMat i k
  constructor
  · intro i hi
    refine ⟨permOfSwaps l i, (permOfSwaps_lt l n hb i).1 hi, ?_, ?_⟩
    · rw [key]; simp
    · intro k' _ hk'
      rw [key]; exact if_neg (fun h => hk' h.symm)
  · intro k hk
    refine ⟨(permOfSwaps l).symm k, ?_, ?_, ?_⟩
    · have : (permOfSwaps l) ((permOfSwaps l).symm k) = k := Equiv.apply_symm_apply _ _
      by_contra hge
      push_neg at hge
      have := (permOfSwaps_lt l n hb ((permOfSwaps l).symm k)).2
      rw [Equiv.apply_symm_apply] at this
      have hklt := hk
      by_cases h : (permOfSwaps l).symm k < n
      · exact absurd h (not_lt_of_ge hge)
      · exact absurd (this hklt) h
    · rw [key, if_pos (Equiv.apply_symm_apply _ _)]
    · intro i' _ hne
      rw [key]
      have : permOfSwaps l i' ≠ k := by
        intro h
        apply hne
        have := congrArg (permOfSwaps l).symm h
        rwa [Equiv.symm_apply_apply] at this
      simp [this]

theorem run_none_bound {σ : Type} (A : IterAlg σ) (maxN : ℕ) {s : σ} {k : ℕ} {r : Option σ}
    (h : A.Run maxN s k r) : r = none →
    maxN ≠ 0 ∧ ∀ j, j + k ≤ maxN → A.deflated (A.qrStep^[j] s) = false := by
  induction h with
  | conv h => intro hr; cases hr
  | budget hdef hne hle =>
    intro _
    refine ⟨hne, fun j hj => ?_⟩
    have hj0 : j = 0 := by omega
    subst hj0; simpa using hdef
  | iter hdef hlt hrun ih =>
    intro hr
    obtain ⟨hne, hall⟩ := ih hr
    refine ⟨hne, fun j hj => ?_⟩
    cases j with
    | zero => simpa using hdef
    | succ j =>
      have := hall j (by omega)
      rwa [Function.iterate_succ_apply]

theorem run_none_build {σ : Type} (A : IterAlg σ) (maxN : ℕ) (hne : maxN ≠ 0) :
    ∀ (d : ℕ) (s : σ) (k : ℕ), k + d = maxN →
    (∀ j, j + k ≤ maxN → A.deflated (A.qrStep^[j] s) = false) →
    A.Run maxN s k none := by
  intro d
  induction d with
  | zero =>
    intro s k hk hall
    exact IterAlg.Run.budget (by simpa using hall 0 (by omega)) hne (by omega)
  | succ d ih =>
    intro s k hk hall
    refine IterAlg.Run.iter (by simpa using hall 0 (by omega)) (Or.inr (by omega)) ?_
    refine ih (A.qrStep s) (k + 1) (by omega) fun j hj => ?_
    have := hall (j + 1) (by omega)
    rwa [Function.iterate_succ_apply] at this

theorem run_unbounded_present {σ : Type} (A : IterAlg σ) {s : σ} {k : ℕ} {r : Option σ}
    (h : A.Run 0 s k r) : ∃ v, r = some v := by
  induction h with
  | conv h => exact ⟨_, rfl⟩
  | budget _ hne _ => exact absurd rfl hne
  | iter _ _ _ ih => exact ih

theorem run_some_converges {σ : Type} (A : IterAlg σ) {s : σ} {k : ℕ} {r : Option σ}
    (h : A.Run 0 s k r) : ∀ v, r = some v →
    ∃ n, A.deflated (A.qrStep^[n] s) = true ∧
      (∀ m < n, A.deflated (A.qrStep^[m] s) = false) ∧ v = A.qrStep^[n] s := by
  induction h with
  | conv hdef =>
    intro v hv
    cases hv
    exact ⟨0, by simpa using hdef, fun m hm => absurd hm (Nat.not_lt_zero m),
      (Function.iterate_zero_apply _ _).symm⟩
  | budget _ hne _ => exact absurd rfl hne
  | iter hdef _ _ ih =>
    intro v hv
    obtain ⟨n, h1, h2, h3⟩ := ih v hv
    refine ⟨n + 1, ?_, ?_, ?_⟩
    · rwa [Function.iterate_succ_apply]
    · intro m hm
      cases m with
      | zero => simpa using hdef
      | succ m =>
        have := h2 m (by omega)
        rwa [Function.iterate_succ_apply]
    · rwa [Function.iterate_succ_apply]

theorem converges_run {σ : Type} (A : IterAlg σ) :
    ∀ (n : ℕ) (s : σ), A.deflated (A.qrStep^[n] s) = true →
    (∀ m < n, A.deflated (A.qrStep^[m] s) = false) →
    ∀ k, A.Run 0 s k (some (A.qrStep^[n] s)) := by
  intro n
  induction n with
  | zero =>
    intro s h _ k
    have hconv : A.Run 0 s k (some s) := IterAlg.Run.conv (by simpa using h)
    simpa using hconv
  | succ n ih =>
    intro s h hall k
    have hdef : A.deflated s = false := by simpa using hall 0 (Nat.succ_pos n)
    refine IterAlg.Run.iter hdef (Or.inl rfl) ?_
    have h' : A.deflated (A.qrStep^[n] (A.qrStep s)) = true := by
      rwa [← Function.iterate_succ_apply]
    have hall' : ∀ m < n, A.deflated (A.qrStep^[m] (A.qrStep s)) = false := by
      intro m hm
      have := hall (m + 1) (by omega)
      rwa [Function.iterate_succ_apply] at this
    have := ih (A.qrStep s) h' hall' (k + 1)
    rw [Function.iterate_succ_apply]
    exact this

theorem exAlg_run_two : (exAlg 0).Run 0 0 0 (some 2) :=
  IterAlg.Run.iter (by decide) (Or.inl rfl)
    (IterAlg.Run.iter (by decide) (Or.inl rfl)
      (IterAlg.Run.conv (by decide)))

theorem bestOf_choice {α : Type} (f : α → ℚ) :
    ∀ (l : List α) (b : α), bestOf f l b = b ∨ bestOf f l b ∈ l := by
  intro l
  induction l with
  | nil => intro b; exact Or.inl rfl
  | cons i t ih =>
    intro b
    have hd : bestOf f (i :: t) b = bestOf f t (if |f b| < |f i| then i else b) := rfl
    rw [hd]
    rcases ih (if |f b| < |f i| then i else b) with h | h
    · rw [h]
      by_cases hc : |f b| < |f i|
      · rw [if_pos hc]; exact Or.inr (List.mem_cons_self _ _)
      · rw [if_neg hc]; exact Or.inl rfl
    · exact Or.inr (List.mem_cons_of_mem _ h)

theorem bestOf_ge {α : Type} (f : α → ℚ) :
    ∀ (l : List α) (b : α),
      |f b| ≤ |f (bestOf f l b)| ∧ ∀ x ∈ l, |f x| ≤ |f (bestOf f l b)| := by
  intro l
  induction l with
  | nil =>
    intro b
    exact ⟨le_refl _, fun x hx => absurd hx (List.not_mem_nil x)⟩
  | cons i t ih =>
    intro b
    have hd : bestOf f (i :: t) b = bestOf f t (if |f b| < |f i| then i else b) := rfl
    rw [hd]
    obtain ⟨h1, h2⟩ := ih (if |f b| < |f i| then i else b)
    constructor
    · refine le_trans ?_ h1
      by_cases hc : |f b| < |f i|
      · rw [if_pos hc]; exact le_of_lt hc
      · rw [if_neg hc]
    · intro x hx
      rcases List.mem_cons.mp hx with heq | hx
      · subst heq
        refine le_trans ?_ h1
        by_cases hc : |f b| < |f x|
        · rw [if_pos hc]
        · rw [if_neg hc]; exact le_of_not_lt hc
      · exact h2 x hx

theorem pivotRow_bounds (m : Mat) (j r : ℕ) (hj : j < r) :
    j ≤ pivotRow m j r ∧ pivotRow m j r < r := by
  have hd : pivotRow m j r
      = bestOf (fun i => m i j) (List.range' (j + 1) (r - (j + 1))) j := rfl
  rcases bestOf_choice (fun i => m i j) (List.range' (j + 1) (r - (j + 1))) j with h | h
  · rw [hd, h]; exact ⟨le_refl j, hj⟩
  · rw [hd]
    have := List.mem_range'_1.mp h
    constructor <;> omega

theorem pivotRow_max (m : Mat) (j r : ℕ) :
    ∀ i, j ≤ i → i < r → |m i j| ≤ |m (pivotRow m j r) j| := by
  intro i h1 h2
  obtain ⟨hb, hl⟩ := bestOf_ge (fun i => m i j) (List.range' (j + 1) (r - (j + 1))) j
  rcases eq_or_lt_of_le h1 with heq | hlt
  · subst heq; exact hb
  · exact hl i (List.mem_range'_1.mpr ⟨by omega, by omega⟩)

theorem pivotPair_bounds (m : Mat) (j r c : ℕ) (hr : j < r) (hc : j < c) :
    (pivotPair m j r c).1 < r ∧ (pivotPair m j r c).2 < c := by
  have hd : pivotPair m j r c = bestOf (fun p => m p.1 p.2)
      (List.product (List.range' j (r - j)) (List.range' j (c - j))) (j, j) := rfl
  have hmem : ∀ p : ℕ × ℕ,
      p ∈ List.product (List.range' j (r - j)) (List.range' j (c - j)) →
      p.1 < r ∧ p.2 < c := by
    rintro ⟨x, y⟩ hp
    obtain ⟨hx, hy⟩ := List.mem_product.mp hp
    have h1 := List.mem_range'_1.mp hx
    have h2 := List.mem_range'_1.mp hy
    exact ⟨by omega, by omega⟩
  rcases bestOf_choice (fun p => m p.1 p.2)
      (List.product (List.range' j (r - j)) (List.range' j (c - j))) (j, j) with h | h
  · rw [hd, h]; exact ⟨hr, hc⟩
  · rw [hd]; exact hmem _ h

theorem swap_lt {a b i n : ℕ} (ha : a < n) (hb : b < n) (hi : i < n) :
    Equiv.swap a b i < n := by
  rcases eq_or_ne i a with rfl | h1
  · rwa [Equiv.swap_apply_left]
  rcases eq_or_ne i b with rfl | h2
  · rwa [Equiv.swap_apply_right]
  · rwa [Equiv.swap_apply_of_ne_of_ne h1 h2]

theorem swap_gt {a b i k : ℕ} (ha : k < a) (hb : k < b) (hi : k < i) :
    k < Equiv.swap a b i := by
  rcases eq_or_ne i a with rfl | h1
  · rwa [Equiv.swap_apply_left]
  rcases eq_or_ne i b with rfl | h2
  · rwa [Equiv.swap_apply_right]
  · rwa [Equiv.swap_apply_of_ne_of_ne h1 h2]

theorem luStep_inv (r : ℕ) (st : LUState) (t : ℕ) (htr : t < r)
    (h : ∀ k i, k < t → k < i → i < r → |st.mat i k| ≤ 1) :
    ∀ k i, k < t + 1 → k < i → i < r → |(luStep r st t).mat i k| ≤ 1 := by
  have hpb := pivotRow_bounds st.mat t r htr
  have hm1 : ∀ k i, k < t → k < i → i < r →
      |swapRows st.mat t (pivotRow st.mat t r) i k| ≤ 1 := by
    intro k i h1 h2 h3
    have hlt : Equiv.swap t (pivotRow st.mat t r) i < r := swap_lt htr hpb.2 h3
    have hgt : k < Equiv.swap t (pivotRow st.mat t r) i :=
      swap_gt h1 (lt_of_lt_of_le h1 hpb.1) h2
    exact h k _ h1 hgt hlt
  have hcol : ∀ i, t ≤ i → i < r →
      |swapRows st.mat t (pivotRow st.mat t r) i t|
        ≤ |swapRows st.mat t (pivotRow st.mat t r) t t| := by
    intro i h1 h2
    have e1 : swapRows st.mat t (pivotRow st.mat t r) t t
        = st.mat (pivotRow st.mat t r) t := by
      show st.mat (Equiv.swap t (pivotRow st.mat t r) t) t = _
      rw [Equiv.swap_apply_left]
    have e2 : swapRows st.mat t (pivotRow st.mat t r) i t
        = st.mat (Equiv.swap t (pivotRow st.mat t r) i) t := rfl
    rw [e1, e2]
    have hb1 : t ≤ Equiv.swap t (pivotRow st.mat t r) i := by
      rcases eq_or_ne i t with rfl | hne1
      · rw [Equiv.swap_apply_left]; exact hpb.1
      rcases eq_or_ne i (pivotRow st.mat t r) with heq2 | hne2
      · rw [heq2, Equiv.swap_apply_right]
      · rw [Equiv.swap_apply_of_ne_of_ne hne1 hne2]; exact h1
    have hb2 : Equiv.swap t (pivotRow st.mat t r) i < r := swap_lt htr hpb.2 h2
    exact pivotRow_max st.mat t r (Equiv.swap t (pivotRow st.mat t r) i) hb1 hb2
  intro k i hk hki hir
  have hmat : (luStep r st t).mat i k
      = luElim r (swapRows st.mat t (pivotRow st.mat t r)) t i k := rfl
  rw [hmat]
  by_cases hd : swapRows st.mat t (pivotRow st.mat t r) t t = 0
  · simp only [luElim]
    rw [if_pos hd]
    by_cases hkt : k < t
    · exact hm1 k i hkt hki hir
    · have hkeq : k = t := by omega
      subst hkeq
      have hle := hcol i (le_of_lt hki) hir
      rw [hd] at hle
      simp only [abs_zero] at hle
      have hz := abs_eq_zero.mp (le_antisymm hle (abs_nonneg _))
      rw [hz]; norm_num
  · simp only [luElim]
    rw [if_neg hd]
    by_cases hkt : k < t
    · by_cases hti : t < i ∧ i < r
      · rw [if_pos hti, if_neg (by omega : ¬ k = t), if_neg (by omega : ¬ t < k)]
        exact hm1 k i hkt hki hir
      · rw [if_neg hti]
        exact hm1 k i hkt hki hir
    · have hkeq : k = t := by omega
      subst hkeq
      rw [if_pos ⟨hki, hir⟩, if_pos rfl, abs_div, div_le_one (abs_pos.mpr hd)]
      exact hcol i (le_of_lt hki) hir

theorem luRun_inv (r c : ℕ) (m : Mat) :
    ∀ n, n ≤ min r c → ∀ k i, k < n → k < i → i < r →
      |((List.range n).foldl (luStep r) ⟨m, []⟩).mat i k| ≤ 1 := by
  intro n
  induction n with
  | zero => intro _ k i hk _ _; exact absurd hk (Nat.not_lt_zero k)
  | succ n ih =>
    intro hn k i hk hki hir
    rw [List.range_succ, List.foldl_append, List.foldl_cons, List.foldl_nil]
    have hnr : n < r := by
      have := Nat.min_le_left r c
      omega
    exact luStep_inv r _ n hnr (fun k' i' h1 h2 h3 => ih (by omega) k' i' h1 h2 h3)
      k i hk hki hir

theorem luRun_swaps_bound (r c : ℕ) (m : Mat) :
    ∀ p ∈ (luRun r c m).swaps, p.1 < r ∧ p.2 < r := by
  have haux : ∀ n, n ≤ min r c →
      ∀ p ∈ ((List.range n).foldl (luStep r) ⟨m, []⟩).swaps, p.1 < r ∧ p.2 < r := by
    intro n
    induction n with
    | zero => intro _ p hp; exact absurd hp (List.not_mem_nil p)
    | succ n ih =>
      intro hn p hp
      rw [List.range_succ, List.foldl_append, List.foldl_cons, List.foldl_nil] at hp
      have hnr : n < r := by
        have := Nat.min_le_left r c
        omega
      have hmem : p ∈ ((List.range n).foldl (luStep r) ⟨m, []⟩).swaps
          ++ [(n, pivotRow ((List.range n).foldl (luStep r) ⟨m, []⟩).mat n r)] := hp
      rcases List.mem_append.mp hmem with h | h
      · exact ih (by omega) p h
      · rcases List.mem_singleton.mp h with rfl
        exact ⟨hnr, (pivotRow_bounds _ n r hnr).2⟩
  exact haux (min r c) (le_refl _)

theorem fullPivLuRun_swaps_bound (r c : ℕ) (m : Mat) :
    (∀ p ∈ (fullPivLuRun r c m).rowSwaps, p.1 < r ∧ p.2 < r) ∧
    (∀ p ∈ (fullPivLuRun r c m).colSwaps, p.1 < c ∧ p.2 < c) := by
  have haux : ∀ n, n ≤ min r c →
      (∀ p ∈ ((List.range n).foldl (fullPivLuStep r c) ⟨m, [], []⟩).rowSwaps,
        p.1 < r ∧ p.2 < r) ∧
      (∀ p ∈ ((List.range n).foldl (fullPivLuStep r c) ⟨m, [], []⟩).colSwaps,
        p.1 < c ∧ p.2 < c) := by
    intro n
    induction n with
    | zero =>
      exact fun _ => ⟨fun p hp => absurd hp (List.not_mem_nil p),
        fun p hp => absurd hp (List.not_mem_nil p)⟩
    | succ n ih =>
      intro hn
      have hnr : n < r := by
        have := Nat.min_le_left r c
        omega
      have hnc : n < c := by
        have := Nat.min_le_right r c
        omega
      obtain ⟨ihr, ihc⟩ := ih (by omega)
      constructor
      · intro p hp
        rw [List.range_succ, List.foldl_append, List.foldl_cons, List.foldl_nil] at hp
        have hmem : p ∈ ((List.range n).foldl (fullPivLuStep r c) ⟨m, [], []⟩).rowSwaps
            ++ [(n, (pivotPair ((List.range n).foldl (fullPivLuStep r c) ⟨m, [], []⟩).mat
                  n r c).1)] := hp
        rcases List.mem_append.mp hmem with h | h
        · exact ihr p h
        · rcases List.mem_singleton.mp h with rfl
          exact ⟨hnr, (pivotPair_bounds _ n r c hnr hnc).1⟩
      · intro p hp
        rw [List.range_succ, List.foldl_append, List.foldl_cons, List.foldl_nil] at hp
        have hmem : p ∈ ((List.range n).foldl (fullPivLuStep r c) ⟨m, [], []⟩).colSwaps
            ++ [(n, (pivotPair ((List.range n).foldl (fullPivLuStep r c) ⟨m, [], []⟩).mat
                  n r c).2)] := hp
        rcases List.mem_append.mp hmem with h | h
        · exact ihc p h
        · rcases List.mem_singleton.mp h with rfl
          exact ⟨hnc, (pivotPair_bounds _ n r c hnr hnc).2⟩
  exact haux (min r c) (le_refl _)

theorem luStep_mat_zero (r j : ℕ) (st : LUState) (h : st.mat = fun _ _ => (0 : ℚ)) :
    (luStep r st j).mat = fun _ _ => (0 : ℚ) := by
  have hmat : (luStep r st j).mat
      = luElim r (swapRows st.mat j (pivotRow st.mat j r)) j := rfl
  rw [hmat, h]
  funext i k
  simp [luElim, swapRows]

theorem luRun_mat_zero (r c : ℕ) :
    (luRun r c (fun _ _ => 0)).mat = fun _ _ => (0 : ℚ) := by
  have haux : ∀ n,
      ((List.range n).foldl (luStep r) ⟨fun _ _ => 0, []⟩).mat = fun _ _ => (0 : ℚ) := by
    intro n
    induction n with
    | zero => rfl
    | succ n ih =>
      rw [List.range_succ, List.foldl_append, List.foldl_cons, List.foldl_nil]
      exact luStep_mat_zero r n _ ih
  exact haux (min r c)

end Decomp

/-- C2: `try_schur` (and likewise `try_symmetric_eigen` and `try_svd`) returns
an absent result exactly when `max_niter` is nonzero and the iteration count
exceeds `max_niter` before convergence (full deflation); when `max_niter = 0`
the algorithm iterates without bound until convergence and, if it returns,
returns a present result. -/
theorem C2_iteration_budget {σ : Type} (alg : ℚ → Decomp.IterAlg σ)
    (svdAlg : Bool → Bool → ℚ → Decomp.IterAlg σ) (m : σ) (cu cv : Bool) (eps : ℚ)
    (maxNiter : ℕ) :
    (Decomp.trySchur alg m eps maxNiter none ↔
      maxNiter ≠ 0 ∧ ∀ j ≤ maxNiter,
        (alg eps).deflated ((alg eps).qrStep^[j] m) = false) ∧
    (Decomp.trySymmetricEigen alg m eps maxNiter none ↔
      maxNiter ≠ 0 ∧ ∀ j ≤ maxNiter,
        (alg eps).deflated ((alg eps).qrStep^[j] m) = false) ∧
    (Decomp.trySvd svdAlg m cu cv eps maxNiter none ↔
      maxNiter ≠ 0 ∧ ∀ j ≤ maxNiter,
        (svdAlg cu cv eps).deflated ((svdAlg cu cv eps).qrStep^[j] m) = false) ∧
    (maxNiter = 0 → ∀ r, Decomp.trySchur alg m eps maxNiter r → ∃ v, r = some v) ∧
    (maxNiter = 0 → ∀ r, Decomp.trySymmetricEigen alg m eps maxNiter r → ∃ v, r = some v) ∧
    (maxNiter = 0 → ∀ r, Decomp.trySvd svdAlg m cu cv eps maxNiter r → ∃ v, r = some v) := by
  have hchar : ∀ (A : Decomp.IterAlg σ),
      A.Run maxNiter m 0 none ↔
        maxNiter ≠ 0 ∧ ∀ j ≤ maxNiter, A.deflated (A.qrStep^[j] m) = false := by
    intro A
    constructor
    · intro h
      obtain ⟨hne, hall⟩ := Decomp.run_none_bound A maxNiter h rfl
      exact ⟨hne, fun j hj => hall j (by omega)⟩
    · rintro ⟨hne, hall⟩
      exact Decomp.run_none_build A maxNiter hne maxNiter m 0 (by omega)
        fun j hj => hall j (by omega)
  have hpres : ∀ (A : Decomp.IterAlg σ), maxNiter = 0 →
      ∀ r, A.Run maxNiter m 0 r → ∃ v, r = some v := by
    intro A h0 r hr
    subst h0
    exact Decomp.run_unbounded_present A hr
  exact ⟨hchar _, hchar _, hchar _, hpres _, hpres _, hpres _⟩

/-- Witness for C2: with the two-step example algorithm, `try_schur` under a
budget of one iteration fails, and an unbounded run that returns, returns a
present result. -/
theorem C2_iteration_budget_witness :
    Decomp.trySchur Decomp.exAlg 0 0 1 none ∧ ∃ v, (some 2 : Option ℕ) = some v := by
  constructor
  · exact (C2_iteration_budget Decomp.exAlg (fun _ _ => Decomp.exAlg) 0 true true 0 1).1.mpr
      (by constructor
          · decide
          · intro j hj
            interval_cases j <;> decide)
  · exact (C2_iteration_budget Decomp.exAlg (fun _ _ => Decomp.exAlg) 0 true true 0 0).2.2.2.1
      rfl (some 2) Decomp.exAlg_run_two

/-- C6: the unbounded entry points `schur`, `symmetric_eigen` and `svd` compute
the same result as their `try_`-variants called with the default tolerance and
`max_niter = 0`, whenever the unbounded run converges. -/
theorem C6_unbounded_equals_try_zero {σ : Type} (alg : ℚ → Decomp.IterAlg σ)
    (svdAlg : Bool → Bool → ℚ → Decomp.IterAlg σ) (defaultEps : ℚ) (m v : σ)
    (cu cv : Bool) :
    (Decomp.schur alg defaultEps m v ↔ Decomp.trySchur alg m defaultEps 0 (some v)) ∧
    (Decomp.symmetricEigen alg defaultEps m v ↔
      Decomp.trySymmetricEigen alg m defaultEps 0 (some v)) ∧
    (Decomp.svd svdAlg defaultEps m cu cv v ↔
      Decomp.trySvd svdAlg m cu cv defaultEps 0 (some v)) := by
  have h : ∀ (A : Decomp.IterAlg σ),
      Decomp.convergesTo A m v ↔ A.Run 0 m 0 (some v) := by
    intro A
    constructor
    · rintro ⟨n, h1, h2, rfl⟩
      exact Decomp.converges_run A n m h1 h2 0
    · intro h
      obtain ⟨n, h1, h2, h3⟩ := Decomp.run_some_converges A h v rfl
      exact ⟨n, h1, h2, h3⟩
  exact ⟨h _, h _, h _⟩

/-- C7: every entry of the lower-triangular L factor produced by `lu`
(Gaussian elimination with partial row pivoting) has absolute value at most
1, and L has a unit diagonal. -/
theorem C7_partial_pivot_bound (r c : ℕ) (m : Decomp.Mat) :
    (∀ i k, |Decomp.luL r c m i k| ≤ 1) ∧
    (∀ i, i < min r c → Decomp.luL r c m i i = 1) := by
  constructor
  · intro i k
    simp only [Decomp.luL]
    by_cases h1 : i < r ∧ k < min r c
    · rw [if_pos h1]
      by_cases h2 : k < i
      · rw [if_pos h2]
        exact Decomp.luRun_inv r c m (min r c) (le_refl _) k i h1.2 h2 h1.1
      · rw [if_neg h2]
        by_cases h3 : k = i
        · rw [if_pos h3]; norm_num
        · rw [if_neg h3]; norm_num
    · rw [if_neg h1]; norm_num
  · intro i hi
    simp only [Decomp.luL]
    rw [if_pos ⟨lt_of_lt_of_le hi (Nat.min_le_left r c), hi⟩,
      if_neg (lt_irrefl i)]
    simp

/-- Witness for C7: on a concrete 2 × 2 matrix whose LU pivots, the (1,0)
multiplier of L is bounded by 1 and the (0,0) diagonal entry of L is 1. -/
theorem C7_partial_pivot_bound_witness :
    |Decomp.luL 2 2 Decomp.matEx 1 0| ≤ 1 ∧ Decomp.luL 2 2 Decomp.matEx 0 0 = 1 :=
  ⟨(C7_partial_pivot_bound 2 2 Decomp.matEx).1 1 0,
   (C7_partial_pivot_bound 2 2 Decomp.matEx).2 0 (by decide)⟩

/-- C8: replaying the swap sequence recorded by `lu` (and the row-swap and
column-swap sequences recorded by `full_piv_lu`) in order against an identity
matrix reconstructs exactly a valid permutation matrix: each row and each
column contains exactly one 1 and zeros elsewhere. -/
theorem C8_permutation_roundtrip (r c : ℕ) (m : Decomp.Mat) :
    Decomp.IsPermMatrix r (Decomp.applySwaps (Decomp.luRun r c m).swaps Decomp.idMat) ∧
    Decomp.IsPermMatrix r
      (Decomp.applySwaps (Decomp.fullPivLuRun r c m).rowSwaps Decomp.idMat) ∧
    Decomp.IsPermMatrix c
      (Decomp.applySwaps (Decomp.fullPivLuRun r c m).colSwaps Decomp.idMat) :=
  ⟨Decomp.isPermMatrix_applySwaps_id _ r (Decomp.luRun_swaps_bound r c m),
   Decomp.isPermMatrix_applySwaps_id _ r (Decomp.fullPivLuRun_swaps_bound r c m).1,
   Decomp.isPermMatrix_applySwaps_id _ c (Decomp.fullPivLuRun_swaps_bound r c m).2⟩

/-- C4: every default (non-`try_`) entry point returns a present
(non-optional) result: only `cholesky` and `udu` among the twelve entry
points have an `Option` return type; the unbounded iterative loop backing
`schur`, `symmetric_eigen` and `svd` can only return a present result; and
`lu` succeeds on a rank-deficient input (the zero matrix), its elimination
continuing through the zero pivots and producing the identity L factor. -/
theorem C4_default_entry_points_present :
    (∀ e : Decomp.EntryPoint, Decomp.returnsOption e = true ↔
      (e = Decomp.EntryPoint.cholesky ∨ e = Decomp.EntryPoint.udu)) ∧
    (∀ (σ : Type) (A : Decomp.IterAlg σ) (s : σ) (r : Option σ),
      A.Run 0 s 0 r → ∃ v, r = some v) ∧
    (∀ i k, (Decomp.luRun 2 2 (fun _ _ => 0)).mat i k = 0) ∧
    (∀ i k, Decomp.luL 2 2 (fun _ _ => 0) i k = if i = k ∧ i < 2 then 1 else 0) := by
  refine ⟨?_, ?_, ?_, ?_⟩
  · intro e
    cases e <;> simp [Decomp.returnsOption]
  · intro σ A s r h
    exact Decomp.run_unbounded_present A h
  · intro i k
    rw [Decomp.luRun_mat_zero]
  · intro i k
    simp only [Decomp.luL, Decomp.luRun_mat_zero, Nat.min_self]
    by_cases h1 : i < 2 ∧ k < 2
    · rw [if_pos h1]
      by_cases h2 : k < i
      · rw [if_pos h2, if_neg (by omega : ¬(i = k ∧ i < 2))]
      · rw [if_neg h2]
        by_cases h3 : k = i
        · rw [if_pos h3, if_pos ⟨h3.symm, h1.1⟩]
        · rw [if_neg h3, if_neg (by omega : ¬(i = k ∧ i < 2))]
    · rw [if_neg h1, if_neg (by omega : ¬(i = k ∧ i < 2))]

/-- Witness for C4: the unbounded-run clause applied to the concrete example
loop returning the state 2. -/
theorem C4_default_entry_points_present_witness :
    ∃ v, (some 2 : Option ℕ) = some v :=
  C4_default_entry_points_present.2.1 ℕ (Decomp.exAlg 0) 0 (some 2) Decomp.exAlg_run_two

namespace Decomp

theorem cholRun_append (sq : ℚ → ℚ) (m : Mat) (l1 l2 : List ℕ) :
    cholRun sq m (l1 ++ l2) = (cholRun sq m l1).bind (fun w => cholRun sq w l2) := by
  induction l1 generalizing m with
  | nil => rfl
  | cons j t ih =>
    simp only [List.cons_append, cholRun]
    by_cases h : m j j ≤ 0
    · rw [if_pos h, if_pos h]
      rfl
    · rw [if_neg h, if_neg h]
      exact ih (cholUpd sq m j)

theorem cholWork_succ (sq : ℚ → ℚ) (m : Mat) (t : ℕ) :
    cholWork sq m (t + 1) = cholUpd sq (cholWork sq m t) t := by
  show (List.range (t + 1)).foldl (cholUpd sq) m = _
  rw [List.range_succ, List.foldl_append, List.foldl_cons, List.foldl_nil]
  rfl

theorem cholRun_all_pos (sq : ℚ → ℚ) (m : Mat) :
    ∀ t, (∀ j < t, 0 < cholPivot sq m j) →
      cholRun sq m (List.range t) = some (cholWork sq m t) := by
  intro t
  induction t with
  | zero => intro _; rfl
  | succ t ih =>
    intro hall
    rw [List.range_succ, cholRun_append, ih (fun j hj => hall j (by omega))]
    show cholRun sq (cholWork sq m t) [t] = some (cholWork sq m (t + 1))
    have hp := hall t (by omega)
    simp only [cholPivot] at hp
    simp only [cholRun]
    rw [if_neg (not_le.mpr hp), cholWork_succ]

theorem range_split {j n : ℕ} (h : j < n) :
    List.range n
      = List.range j ++ j :: ((List.range (n - (j + 1))).map (fun x => (j + 1) + x)) := by
  have h1 : n = (j + 1) + (n - (j + 1)) := by omega
  conv_lhs => rw [h1]
  rw [List.range_add, List.range_succ]
  simp [List.append_assoc]

theorem cholUpd_eqLower (sq : ℚ → ℚ) (n : ℕ) (a b : Mat) (j : ℕ) (hj : j < n)
    (h : EqLower n a b) : EqLower n (cholUpd sq a j) (cholUpd sq b j) := by
  intro i hi k hk
  simp only [cholUpd]
  have hjj : a j j = b j j := h j hj j (le_refl j)
  by_cases hkj : k = j
  · rw [if_pos hkj, if_pos hkj]
    by_cases hij : i = j
    · rw [if_pos hij, if_pos hij, hjj]
    · rw [if_neg hij, if_neg hij]
      by_cases hji : j < i
      · rw [if_pos hji, if_pos hji, hjj, h i hi j (by omega)]
      · rw [if_neg hji, if_neg hji]
        exact h i hi k hk
  · rw [if_neg hkj, if_neg hkj]
    by_cases hcond : j < k ∧ k ≤ i
    · rw [if_pos hcond, if_pos hcond]
      rw [h i hi k hk, h i hi j (by omega), h k (by omega) j (by omega), hjj]
    · rw [if_neg hcond, if_neg hcond]
      exact h i hi k hk

theorem cholRun_eqLower (sq : ℚ → ℚ) (n : ℕ) :
    ∀ (l : List ℕ), (∀ j ∈ l, j < n) → ∀ (a b : Mat), EqLower n a b →
      (cholRun sq a l = none ↔ cholRun sq b l = none) ∧
      (∀ wa wb, cholRun sq a l = some wa → cholRun sq b l = some wb →
        EqLower n wa wb) := by
  intro l
  induction l with
  | nil =>
    intro _ a b h
    refine ⟨by simp [cholRun], ?_⟩
    intro wa wb h1 h2
    simp only [cholRun] at h1 h2
    injection h1 with h1
    injection h2 with h2
    subst h1
    subst h2
    exact h
  | cons j t ih =>
    intro hjl a b h
    have hjn : j < n := hjl j (List.mem_cons_self _ _)
    have hjj : a j j = b j j := h j hjn j (le_refl j)
    simp only [cholRun]
    by_cases hp : a j j ≤ 0
    · rw [if_pos hp, if_pos (hjj ▸ hp)]
      exact ⟨Iff.rfl, fun wa wb h1 _ => absurd h1 (by simp)⟩
    · rw [if_neg hp, if_neg (hjj ▸ hp)]
      exact ih (fun x hx => hjl x (List.mem_cons_of_mem _ hx)) _ _
        (cholUpd_eqLower sq n a b j hjn h)

theorem cholesky_eqLower (sq : ℚ → ℚ) (n : ℕ) (a b : Mat) (h : EqLower n a b) :
    cholesky sq n a = cholesky sq n b := by
  have hmem : ∀ j ∈ List.range n, j < n := fun j hj => List.mem_range.mp hj
  obtain ⟨hiff, hsome⟩ := cholRun_eqLower sq n (List.range n) hmem a b h
  rcases hra : cholRun sq a (List.range n) with _ | wa
  · have hrb : cholRun sq b (List.range n) = none := hiff.mp hra
    simp only [cholesky]
    rw [hra, hrb]
  · rcases hrb : cholRun sq b (List.range n) with _ | wb
    · rw [hiff.mpr hrb] at hra
      simp at hra
    · have hlw := hsome wa wb hra hrb
      simp only [cholesky]
      rw [hra, hrb]
      simp only [Option.map_some']
      congr 1
      funext i k
      by_cases hc : i < n ∧ k ≤ i
      · rw [if_pos hc, if_pos hc, hlw i hc.1 k hc.2]
      · rw [if_neg hc, if_neg hc]

theorem uduStep_eqUpper (n : ℕ) (a b : Mat) (j : ℕ) (hj : j < n)
    (h : EqUpper n a b) (st : Option ((ℕ → ℚ) × Mat)) :
    uduStep a n st j = uduStep b n st j := by
  rcases st with _ | ⟨d, u⟩
  · rfl
  · simp only [uduStep]
    have hjj : a j j = b j j := h j hj j (le_refl j)
    rw [hjj]
    by_cases hz : (b j j -
        ((List.range' (j + 1) (n - (j + 1))).map (fun t => d t * u j t * u j t)).sum) = 0
    · rw [if_pos hz, if_pos hz]
    · rw [if_neg hz, if_neg hz]
      congr 1
      refine congrArg (Prod.mk _) ?_
      funext i k
      by_cases hkj : k = j
      · rw [if_pos hkj, if_pos hkj]
        by_cases hij : i = j
        · rw [if_pos hij, if_pos hij]
        · rw [if_neg hij, if_neg hij]
          by_cases hlt : i < j
          · rw [if_pos hlt, if_pos hlt, h j hj i (le_of_lt hlt)]
          · rw [if_neg hlt, if_neg hlt]
      · rw [if_neg hkj, if_neg hkj]

theorem udu_eqUpper (n : ℕ) (a b : Mat) (h : EqUpper n a b) :
    udu n a = udu n b := by
  simp only [udu]
  have haux : ∀ (l : List ℕ), (∀ j ∈ l, j < n) →
      ∀ st, l.foldl (uduStep a n) st = l.foldl (uduStep b n) st := by
    intro l
    induction l with
    | nil => intro _ st; rfl
    | cons j t ih =>
      intro hm st
      simp only [List.foldl_cons]
      rw [uduStep_eqUpper n a b j (hm j (List.mem_cons_self _ _)) h st]
      exact ih (fun x hx => hm x (List.mem_cons_of_mem _ hx)) _
  exact haux (List.range n).reverse
    (fun j hj => List.mem_range.mp (List.mem_reverse.mp hj)) _

theorem lowerSymPart_eqLower (n : ℕ) (a b : Mat) (h : EqLower n a b) :
    lowerSymPart n a = lowerSymPart n b := by
  funext i k
  simp only [lowerSymPart]
  by_cases h1 : i < n ∧ k < n
  · rw [if_pos h1, if_pos h1]
    by_cases h2 : k ≤ i
    · rw [if_pos h2, if_pos h2, h i h1.1 k h2]
    · rw [if_neg h2, if_neg h2, h k h1.2 i (by omega)]
  · rw [if_neg h1, if_neg h1]

theorem mem_insertDesc (x z : ℚ) : ∀ (l : List ℚ), z ∈ insertDesc x l → z = x ∨ z ∈ l := by
  intro l
  induction l with
  | nil =>
    intro h
    simp only [insertDesc] at h
    rcases List.mem_singleton.mp h with rfl
    exact Or.inl rfl
  | cons y t ih =>
    intro h
    simp only [insertDesc] at h
    by_cases hc : y < x
    · rw [if_pos hc] at h
      rcases List.mem_cons.mp h with h1 | h1
      · exact Or.inl h1
      · exact Or.inr h1
    · rw [if_neg hc] at h
      rcases List.mem_cons.mp h with h1 | h1
      · exact Or.inr (h1 ▸ List.mem_cons_self y t)
      · rcases ih h1 with h2 | h2
        · exact Or.inl h2
        · exact Or.inr (List.mem_cons_of_mem y h2)

theorem sorted_insertDesc (x : ℚ) : ∀ (l : List ℚ), l.Sorted (· ≥ ·) →
    (insertDesc x l).Sorted (· ≥ ·) := by
  intro l
  induction l with
  | nil =>
    intro _
    simp [insertDesc]
  | cons y t ih =>
    intro hs
    rw [List.sorted_cons] at hs
    obtain ⟨hy, ht⟩ := hs
    simp only [insertDesc]
    by_cases hc : y < x
    · rw [if_pos hc, List.sorted_cons]
      constructor
      · intro b hb
        rcases List.mem_cons.mp hb with rfl | hb
        · exact le_of_lt hc
        · exact le_trans (hy b hb) (le_of_lt hc)
      · exact List.sorted_cons.mpr ⟨hy, ht⟩
    · rw [if_neg hc, List.sorted_cons]
      constructor
      · intro b hb
        rcases mem_insertDesc x b t hb with rfl | hb
        · exact le_of_not_lt hc
        · exact hy b hb
      · exact ih ht

theorem sorted_sortDesc : ∀ (l : List ℚ), (sortDesc l).Sorted (· ≥ ·) := by
  intro l
  induction l with
  | nil => simp [sortDesc]
  | cons x t ih => exact sorted_insertDesc x (sortDesc t) ih

theorem mem_sortDesc (z : ℚ) : ∀ (l : List ℚ), z ∈ sortDesc l → z ∈ l := by
  intro l
  induction l with
  | nil =>
    intro h
    simp [sortDesc] at h
  | cons x t ih =>
    intro h
    rcases mem_insertDesc x z (sortDesc t) h with rfl | h1
    · exact List.mem_cons_self _ _
    · exact List.mem_cons_of_mem _ (ih h1)

end Decomp

/-- C3: `cholesky` returns an absent result if and only if, during sequential
column elimination reading only the lower triangle, some diagonal pivot step
(necessarily the first such step, all earlier pivots being positive) would
require taking the square root of a non-positive value; and the identity
matrix — a symmetric positive-definite input — yields the identity factor L. -/
theorem C3_cholesky_failure (sq : ℚ → ℚ) (n : ℕ) (m : Decomp.Mat) :
    (Decomp.cholesky sq n m = none ↔
      ∃ j < n, (∀ t < j, 0 < Decomp.cholPivot sq m t) ∧ Decomp.cholPivot sq m j ≤ 0) ∧
    (sq 1 = 1 → Decomp.cholesky sq n Decomp.idMat
      = some (fun i k => if i < n ∧ k ≤ i ∧ i = k then 1 else 0)) := by
  constructor
  · constructor
    · intro hnone
      by_contra hno
      push_neg at hno
      have hall : ∀ j, j < n → 0 < Decomp.cholPivot sq m j := by
        intro j
        induction j using Nat.strong_induction_on with
        | _ j ih => exact fun hjn => hno j hjn (fun t ht => ih t ht (by omega))
      rw [Decomp.cholesky, Decomp.cholRun_all_pos sq m n hall] at hnone
      simp at hnone
    · rintro ⟨j, hjn, hfirst, hbad⟩
      rw [Decomp.cholesky, Decomp.range_split hjn, Decomp.cholRun_append,
        Decomp.cholRun_all_pos sq m j hfirst]
      have hstop : Decomp.cholRun sq (Decomp.cholWork sq m j)
          (j :: ((List.range (n - (j + 1))).map (fun x => (j + 1) + x))) = none := by
        simp only [Decomp.cholRun]
        rw [if_pos (show Decomp.cholWork sq m j j j ≤ 0 from hbad)]
      show (Decomp.cholRun sq (Decomp.cholWork sq m j)
          (j :: ((List.range (n - (j + 1))).map (fun x => (j + 1) + x)))).map _ = none
      rw [hstop]
      rfl
  · intro hsq
    have hupd : ∀ j, Decomp.cholUpd sq Decomp.idMat j = Decomp.idMat := by
      intro j
      funext i k
      simp only [Decomp.cholUpd]
      by_cases hkj : k = j
      · rw [if_pos hkj]
        by_cases hij : i = j
        · rw [if_pos hij]
          have h1 : Decomp.idMat j j = 1 := by simp [Decomp.idMat]
          rw [h1, hsq, hkj, hij, h1]
        · rw [if_neg hij]
          by_cases hji : j < i
          · rw [if_pos hji]
            have h0 : Decomp.idMat i j = 0 := by simp [Decomp.idMat, hij]
            have h1 : Decomp.idMat j j = 1 := by simp [Decomp.idMat]
            rw [h0, h1, hsq, hkj, h0]
            norm_num
          · rw [if_neg hji]
      · rw [if_neg hkj]
        by_cases hcond : j < k ∧ k ≤ i
        · rw [if_pos hcond]
          have h0 : Decomp.idMat i j = 0 := by
            have : i ≠ j := by omega
            simp [Decomp.idMat, this]
          rw [h0]
          ring
        · rw [if_neg hcond]
    have hwork : ∀ t, Decomp.cholWork sq Decomp.idMat t = Decomp.idMat := by
      intro t
      induction t with
      | zero => rfl
      | succ t ih => rw [Decomp.cholWork_succ, ih, hupd]
    have hpiv : ∀ j, 0 < Decomp.cholPivot sq Decomp.idMat j := by
      intro j
      have heq : Decomp.cholPivot sq Decomp.idMat j = Decomp.idMat j j := by
        simp only [Decomp.cholPivot]
        rw [hwork j]
      rw [heq]
      simp [Decomp.idMat]
    rw [Decomp.cholesky,
      Decomp.cholRun_all_pos sq Decomp.idMat n (fun j _ => hpiv j), hwork]
    simp only [Option.map_some']
    congr 1
    funext i k
    by_cases h1 : i < n ∧ k ≤ i
    · rw [if_pos h1]
      by_cases h2 : i = k
      · rw [if_pos ⟨h1.1, h1.2, h2⟩]
        simp [Decomp.idMat, h2]
      · rw [if_neg (fun hc => h2 hc.2.2)]
        simp [Decomp.idMat, h2]
    · rw [if_neg h1, if_neg (fun hc => h1 ⟨hc.1, hc.2.1⟩)]

/-- Witness for C3: the 1 × 1 matrix holding -1 is rejected (its first and
only pivot is -1), and the 2 × 2 identity matrix (with the identity function
standing in for the square root, which is correct at 1) yields the identity
factor. -/
theorem C3_cholesky_failure_witness :
    Decomp.cholesky id 1 Decomp.negOneMat = none ∧
    Decomp.cholesky id 2 Decomp.idMat
      = some (fun i k => if i < 2 ∧ k ≤ i ∧ i = k then 1 else 0) := by
  constructor
  · exact (C3_cholesky_failure id 1 Decomp.negOneMat).1.mpr
      ⟨0, by decide, fun t ht => absurd ht (Nat.not_lt_zero t), by decide⟩
  · exact (C3_cholesky_failure id 2 Decomp.idMat).2 rfl

/-- C9: matrices agreeing on the documented triangle produce identical
results: the lower triangle (diagonal included) determines `cholesky`,
`symmetric_tridiagonalize` and `symmetric_eigen`, and the upper triangle
determines `udu`; the ignored triangle never influences the output. -/
theorem C9_triangle_independence (n : ℕ) (a b : Decomp.Mat) (sq : ℚ → ℚ) :
    (Decomp.EqLower n a b → Decomp.cholesky sq n a = Decomp.cholesky sq n b) ∧
    (Decomp.EqUpper n a b → Decomp.udu n a = Decomp.udu n b) ∧
    (∀ (α : Type) (red : Decomp.Mat → α), Decomp.EqLower n a b →
      Decomp.symmetricTridiagonalize red n a = Decomp.symmetricTridiagonalize red n b) ∧
    (∀ (α : Type) (pipeline : Decomp.Mat → α), Decomp.EqLower n a b →
      Decomp.symmetricEigenLower pipeline n a = Decomp.symmetricEigenLower pipeline n b) := by
  refine ⟨Decomp.cholesky_eqLower sq n a b, Decomp.udu_eqUpper n a b, ?_, ?_⟩
  · intro α red h
    simp only [Decomp.symmetricTridiagonalize]
    rw [Decomp.lowerSymPart_eqLower n a b h]
  · intro α pipeline h
    simp only [Decomp.symmetricEigenLower]
    rw [Decomp.lowerSymPart_eqLower n a b h]

/-- Witness for C9: `exA` and `exB` share a lower triangle but differ above
the diagonal, yet their Cholesky results and their (abstractly reduced)
tridiagonalization inputs coincide at `n = 2`. -/
theorem C9_triangle_independence_witness :
    Decomp.cholesky id 2 Decomp.exA = Decomp.cholesky id 2 Decomp.exB ∧
    Decomp.symmetricTridiagonalize (fun m => m) 2 Decomp.exA
      = Decomp.symmetricTridiagonalize (fun m => m) 2 Decomp.exB :=
  ⟨(C9_triangle_independence 2 Decomp.exA Decomp.exB id).1
     (by simp only [Decomp.EqLower]; decide),
   (C9_triangle_independence 2 Decomp.exA Decomp.exB id).2.2.1 Decomp.Mat
     (fun m => m) (by simp only [Decomp.EqLower]; decide)⟩

/-- C5: whenever the SVD returns a result, the singular-value vector is
sorted in descending order and every entry is non-negative. -/
theorem C5_singular_values_sorted_nonneg {σ : Type} (stage : σ → Option (List ℚ))
    (m : σ) (l : List ℚ) (h : Decomp.trySvdValues stage m = some l) :
    l.Sorted (· ≥ ·) ∧ ∀ x ∈ l, 0 ≤ x := by
  simp only [Decomp.trySvdValues] at h
  rcases hst : stage m with _ | raw
  · rw [hst] at h
    cases h
  · rw [hst] at h
    simp only [Option.map_some'] at h
    injection h with h
    subst h
    constructor
    · exact Decomp.sorted_sortDesc _
    · intro x hx
      have hmem := Decomp.mem_sortDesc x _ hx
      simp only [List.mem_map] at hmem
      obtain ⟨y, _, rfl⟩ := hmem
      exact abs_nonneg y

/-- Witness for C5: the stage emitting raw diagonal [3, -5, 2] yields the
singular values [5, 3, 2], sorted descending and non-negative. -/
theorem C5_singular_values_sorted_nonneg_witness :
    ([5, 3, 2] : List ℚ).Sorted (· ≥ ·) ∧ ∀ x ∈ ([5, 3, 2] : List ℚ), 0 ≤ x :=
  C5_singular_values_sorted_nonneg Decomp.stageEx 0 [5, 3, 2] (by decide)

/-- C10: the `DimSub<U1>` trait bounds in the dispatch signatures mean that
`bidiagonalize`, `svd` and `try_svd` are only defined when `min(R, C) ≥ 1`,
and `hessenberg`, `schur`, `try_schur`, `symmetric_eigen`,
`try_symmetric_eigen` and `symmetric_tridiagonalize` only when the square
dimension is at least 1; zero-extent matrices are excluded at these entry
points. -/
theorem C10_dimension_preconditions :
    (∀ r c : ℕ, (Decomp.bidiagonalizeDefined r c ∧ Decomp.svdDefined r c ∧
      Decomp.trySvdDefined r c) ↔ 1 ≤ min r c) ∧
    (∀ d : ℕ, (Decomp.hessenbergDefined d ∧ Decomp.schurDefined d ∧
      Decomp.trySchurDefined d ∧ Decomp.symmetricEigenDefined d ∧
      Decomp.trySymmetricEigenDefined d ∧ Decomp.symmetricTridiagonalizeDefined d) ↔
      1 ≤ d) ∧
    (∀ c : ℕ, ¬ Decomp.bidiagonalizeDefined 0 c) ∧
    (∀ r : ℕ, ¬ Decomp.svdDefined r 0) ∧
    ¬ Decomp.hessenbergDefined 0 := by
  have hiff : ∀ d : ℕ, Decomp.dimSubU1 d ↔ 1 ≤ d := by
    intro d
    constructor
    · rintro ⟨e, rfl⟩
      omega
    · intro h
      exact ⟨d - 1, by omega⟩
  refine ⟨?_, ?_, ?_, ?_, ?_⟩
  · intro r c
    simp only [Decomp.bidiagonalizeDefined, Decomp.svdDefined, Decomp.trySvdDefined]
    rw [hiff]
    tauto
  · intro d
    simp only [Decomp.hessenbergDefined, Decomp.schurDefined, Decomp.trySchurDefined,
      Decomp.symmetricEigenDefined, Decomp.trySymmetricEigenDefined,
      Decomp.symmetricTridiagonalizeDefined]
    rw [hiff]
    tauto
  · intro c
    simp only [Decomp.bidiagonalizeDefined]
    rw [hiff]
    simp
  · intro r
    simp only [Decomp.svdDefined]
    rw [hiff]
    simp
  · simp only [Decomp.hessenbergDefined]
    rw [hiff]
    simp

/-- Witness for C6: with the two-step example algorithm, the unbounded `schur`
result (the first deflated iterate, 2) is also what `try_schur` with
`max_niter = 0` returns. -/
theorem C6_unbounded_equals_try_zero_witness :
    Decomp.trySchur Decomp.exAlg 0 0 0 (some 2) :=
  (C6_unbounded_equals_try_zero Decomp.exAlg (fun _ _ => Decomp.exAlg) 0 0 2
    true true).1.mp
    ⟨2, by decide, fun t ht => by interval_cases t <;> decide, by decide⟩
